import Mathlib

/-!
Shallow embedding of the Sue assistant core (src/utils.py, src/sue_agent.py).

Python strings are modelled as lists of Unicode code points (List Char).
Time is an explicit natural-number parameter (seconds); the external
collaborators (HTTP fetch, html2text conversion, search provider, remote
chat model) are oracle parameters, with fallible ones returning Except.
-/

set_option maxRecDepth 4000

/-- Python str: a sequence of Unicode code points. -/
abbrev Str := List Char

/-- ASCII whitespace recognised by Python str.split / str.strip
(space, tab, newline, carriage return, vertical tab, form feed).
Non-ASCII Unicode whitespace is not exercised by this code base. -/
def isPyWs (c : Char) : Bool :=
  c = ' ' || c = '\t' || c = '\n' || c = '\r' || c.toNat = 11 || c.toNat = 12

/-- Python str.lower restricted to the alphabets this code base uses:
ASCII A-Z and Cyrillic А-Я / Ё. -/
def lowerChar (c : Char) : Char :=
  if 65 ≤ c.toNat ∧ c.toNat ≤ 90 then Char.ofNat (c.toNat + 32)
  else if 1040 ≤ c.toNat ∧ c.toNat ≤ 1071 then Char.ofNat (c.toNat + 32)
  else if c.toNat = 1025 then Char.ofNat 1105
  else c

/-- Python str.lower on a whole string. -/
def toLowerPy (s : Str) : Str := s.map lowerChar

/-- Python str.startswith: does the second list start with the first. -/
def startsWithL : Str → Str → Bool
  | [], _ => true
  | _ :: _, [] => false
  | p :: ps, s :: ss => p == s && startsWithL ps ss

/-- Python substring test (needle in haystack). -/
def listContains (needle : Str) : Str → Bool
  | [] => needle.isEmpty
  | c :: t => startsWithL needle (c :: t) || listContains needle t

/-- Python str.lstrip() (whitespace). -/
def lstripWs (s : Str) : Str := s.dropWhile isPyWs

/-- Python str.rstrip() (whitespace). -/
def rstripWs (s : Str) : Str := (s.reverse.dropWhile isPyWs).reverse

/-- Python str.strip() (whitespace). -/
def stripWs (s : Str) : Str := rstripWs (lstripWs s)

/-- Python str.rstrip of a question-mark character. -/
def rstripQ (s : Str) : Str := (s.reverse.dropWhile (fun c => c = '?')).reverse

/-- sep.join(parts) for Python lists of strings. -/
def joinSep (sep : Str) : List Str → Str
  | [] => []
  | [x] => x
  | x :: y :: t => x ++ sep ++ joinSep sep (y :: t)

/-- Helper for Python str.split() (accumulator holds the current word reversed). -/
def splitWsAux : Str → Str → List Str
  | acc, [] => if acc.isEmpty then [] else [acc.reverse]
  | acc, c :: t =>
    if isPyWs c then
      (if acc.isEmpty then splitWsAux [] t else acc.reverse :: splitWsAux [] t)
    else splitWsAux (c :: acc) t

/-- Python str.split(): split on whitespace runs, dropping empty pieces. -/
def splitWsPy (s : Str) : List Str := splitWsAux [] s

/-- Decimal rendering of a number, as Python str(n) inside an f-string. -/
def natStr (n : Nat) : Str := (Nat.repr n).data

/-- utils.py search result dictionary built by search_web:
keys title, link, snippet. -/
structure SearchResult where
  title : Str
  link : Str
  snippet : Str
deriving DecidableEq

/-- Raw item produced by the external googlesearch provider (advanced=True):
attributes url, title, description.  An empty title / description is falsy in
Python, which search_web replaces by the url / a fixed fallback text. -/
structure RawResult where
  url : Str
  title : Str
  description : Str
deriving DecidableEq

/-- The two value shapes held by the global web_cache: page markdown text
(keyed by URL) and search result lists (keyed by search_..._n keys). -/
inductive CacheVal where
  | text (s : Str)
  | results (rs : List SearchResult)
deriving DecidableEq

/-- utils.WebCache: ttl seconds, max_size bound, and the underlying Python
dict modelled as an insertion-ordered association list
(key, value, timestamp). -/
structure WebCache (α : Type) where
  ttl : Nat
  max_size : Nat
  cache : List (Str × α × Nat)
deriving DecidableEq

/-- Dict lookup: first (and, for a genuine dict, only) binding of a key. -/
def getEntry {α : Type} : List (Str × α × Nat) → Str → Option (α × Nat)
  | [], _ => none
  | e :: t, k => if e.1 = k then some e.2 else getEntry t k

/-- Python del d[k]: remove the binding of k (the first one; dict keys are unique). -/
def removeKey {α : Type} : List (Str × α × Nat) → Str → List (Str × α × Nat)
  | [], _ => []
  | e :: t, k => if e.1 = k then t else e :: removeKey t k

/-- Python d[k] = v assignment: overwrite in place if the key exists
(keeping its position, as dicts do), otherwise append. -/
def upsertEntry {α : Type} : List (Str × α × Nat) → Str → α → Nat → List (Str × α × Nat)
  | [], k, v, now => [(k, v, now)]
  | e :: t, k, v, now => if e.1 = k then (k, v, now) :: t else e :: upsertEntry t k v now

/-- min(items, key=timestamp) over a nonempty list: Python min keeps the
current best unless a strictly smaller key appears, so ties go to the first
element encountered. -/
def minByTs {α : Type} : (Str × α × Nat) → List (Str × α × Nat) → (Str × α × Nat)
  | best, [] => best
  | best, e :: t => if e.2.2 < best.2.2 then minByTs e t else minByTs best t

/-- WebCache.get (utils.py lines 29-39): value if present and not older than
ttl, else delete the entry (if present) and return none.  Current time is an
explicit parameter; the subtraction now - ts is over Nat (real runs have
ts ≤ now). -/
def WebCache.get {α : Type} (c : WebCache α) (key : Str) (now : Nat) :
    Option α × WebCache α :=
  match getEntry c.cache key with
  | none => (none, c)
  | some (v, ts) =>
    if c.ttl < now - ts then (none, { c with cache := removeKey c.cache key })
    else (some v, c)

/-- The eviction step at the head of WebCache.set: when the dict already
holds max_size or more entries, delete the one with the minimum timestamp
(first encountered on ties).  Python min() on an empty dict raises; that is
reachable only with max_size = 0, and every theorem below assumes
1 ≤ max_size (the configured value is 100). -/
def evictIfFull {α : Type} (c : WebCache α) : List (Str × α × Nat) :=
  if c.max_size ≤ c.cache.length then
    match c.cache with
    | [] => c.cache
    | e :: rest => removeKey c.cache (minByTs e rest).1
  else c.cache

/-- WebCache.set (utils.py lines 41-51): evict the oldest entry when full,
then insert/overwrite the key with the current time as its timestamp. -/
def WebCache.set {α : Type} (c : WebCache α) (key : Str) (v : α) (now : Nat) :
    WebCache α :=
  { c with cache := upsertEntry (evictIfFull c) key v now }

/-- A fresh cache, as constructed by WebCache(ttl, max_size). -/
def emptyCache (α : Type) (ttl max_size : Nat) : WebCache α :=
  ⟨ttl, max_size, []⟩

/-- One external cache interaction, for stating whole-history invariants. -/
inductive CacheOp (α : Type) where
  | get (key : Str) (now : Nat)
  | set (key : Str) (v : α) (now : Nat)

/-- Apply one cache operation (keeping only the state). -/
def runOp {α : Type} (c : WebCache α) : CacheOp α → WebCache α
  | CacheOp.get k now => (WebCache.get c k now).2
  | CacheOp.set k v now => WebCache.set c k v now

/-- Run a sequence of cache operations. -/
def runOps {α : Type} (c : WebCache α) (ops : List (CacheOp α)) : WebCache α :=
  ops.foldl runOp c

/-- Outcome of the single HTTP GET issued by process_webpage_async:
an asyncio timeout, any other transport/parsing exception, or a response
with a status code and a body. -/
inductive HttpOutcome where
  | timeout
  | exn (msg : Str)
  | response (status : Nat) (html : Str)

/-- process_webpage_async (utils.py lines 56-101).  The html2text
conversion h.handle is the oracle parameter handle; the network is the
HttpOutcome parameter.  The title extraction feeds logging only and is
omitted.  The Python truthiness test on the cached value is modelled
explicitly; non-text values under a URL key do not occur in operation. -/
def process_webpage_async (handle : Str → Str) (net : HttpOutcome) (url : Str)
    (cache : WebCache CacheVal) (now : Nat) : Str × WebCache CacheVal :=
  let g := cache.get url now
  let hit : Option Str :=
    match g.1 with
    | some (CacheVal.text s) => if s.isEmpty then none else some s
    | _ => none
  match hit with
  | some s => (s, g.2)
  | none =>
    match net with
    | HttpOutcome.timeout => ("Ошибка: превышено время ожидания".data, g.2)
    | HttpOutcome.exn m => ("Ошибка при обработке страницы: ".data ++ m, g.2)
    | HttpOutcome.response status html =>
      if status ≠ 200 then ("Ошибка: статус ".data ++ natStr status, g.2)
      else
        let markdown := stripWs (handle html)
        if markdown.isEmpty then ("Не удалось извлечь контент".data, g.2)
        else (markdown, (g.2).set url (CacheVal.text markdown) now)

/-- The three replace calls in clean_search_query all remove the same
ASCII double-quote character (verified on the source bytes). -/
def removeQuotes (s : Str) : Str := s.filter (fun c => ¬ c = '"')

/-- The fixed Russian search-intent words of clean_search_query, in source
order. -/
def searchWords : List Str :=
  ["найди".data, "поищи".data, "расскажи".data, "что такое".data]

/-- The for-loop of clean_search_query: for each word in order, if the
lowered current query starts with it, drop that many characters and lstrip. -/
def stripWordsLoop : List Str → Str → Str
  | [], q => q
  | w :: ws, q =>
    if startsWithL w (toLowerPy q) then stripWordsLoop ws (lstripWs (q.drop w.length))
    else stripWordsLoop ws q

/-- clean_search_query (utils.py lines 103-113). -/
def clean_search_query (q : Str) : Str :=
  stripWs (stripWordsLoop searchWords (rstripQ (removeQuotes q)))

/-- Mapping from a raw provider item to the dictionary search_web appends:
falsy (empty) title falls back to the url, falsy description to a fixed
text. -/
def toSearchResult (r : RawResult) : SearchResult :=
  ⟨(if r.title.isEmpty then r.url else r.title), r.url,
   (if r.description.isEmpty then "Описание недоступно".data else r.description)⟩

/-- The composite cache key built by search_web. -/
def searchCacheKey (clean_query : Str) (num : Nat) : Str :=
  "search_".data ++ clean_query ++ ['_'] ++ natStr num

/-- The relaxed retry query: first three whitespace-delimited tokens. -/
def firstThreeKeywords (clean_query : Str) : Str :=
  joinSep [' '] ((splitWsPy clean_query).take 3)

/-- Truthiness test search_web applies to a cached value: a cached
non-empty result list is a hit; anything else falls through. -/
def searchCacheHit : Option CacheVal → Option (List SearchResult)
  | some (CacheVal.results rs) => if rs.isEmpty then none else some rs
  | _ => none

/-- search_web (utils.py lines 115-181).  The provider (googlesearch with
lang=ru, advanced=True) is an oracle that either yields the raw items or
throws; iteration over its items is atomic here, so a thrown primary call
leaves results empty and triggers the single retry, exactly as in the
source when the exception precedes the first yielded item.  The outer
try/except returns [] on any escaped exception; no step of this model
throws, so the function is total and never propagates a failure. -/
def search_web (provider : Str → Nat → Except Str (List RawResult))
    (cache : WebCache CacheVal) (now : Nat) (query : Str) (num : Nat) :
    List SearchResult × WebCache CacheVal :=
  let clean_query := clean_search_query query
  let cache_key := searchCacheKey clean_query num
  let g := cache.get cache_key now
  match searchCacheHit g.1 with
  | some rs => (rs, g.2)
  | none =>
    let results :=
      match provider clean_query num with
      | Except.ok rs => rs.map toSearchResult
      | Except.error _ =>
        match provider (firstThreeKeywords clean_query) num with
        | Except.ok rs2 => rs2.map toSearchResult
        | Except.error _ => []
    if results.isEmpty then ([], g.2)
    else (results, (g.2).set cache_key (CacheVal.results results) now)

/-- Role tag of one history turn. -/
inductive Role where
  | user
  | assistant
deriving DecidableEq

/-- One turn of the conversation history. -/
structure Msg where
  role : Role
  content : Str
deriving DecidableEq

/-- The remote chat model: given the composed input prompt and the full
history, returns generated text or a provider error. -/
abbrev Model := Str → List Msg → Except Str Str

/-- SueAgent mutable state: context_pages is the insertion-ordered dict
url -> (content, timestamp); current_context and last_url are optional
URLs; chat_history is the append-only message list. -/
structure AgentState where
  context_pages : List (Str × Str × Nat)
  current_context : Option Str
  last_url : Option Str
  chat_history : List Msg
deriving DecidableEq

/-- SueAgent._add_to_history (sue_agent.py lines 96-99). -/
def add_to_history (st : AgentState) (human ai : Str) : AgentState :=
  { st with chat_history :=
      st.chat_history ++ [⟨Role.user, human⟩, ⟨Role.assistant, ai⟩] }

/-- The plain-chat prompt template of SueAgent.chat. -/
def chat_prompt_of (input : Str) : Str :=
  "Ответь на следующее сообщение пользователя, учитывая предыдущий контекст разговора.\nСообщение пользователя: ".data
    ++ input

/-- SueAgent.chat (sue_agent.py lines 101-120). -/
def chat (invoke : Model) (st : AgentState) (user_input : Str) :
    Str × AgentState :=
  match invoke (chat_prompt_of user_input) st.chat_history with
  | Except.ok response => (response, add_to_history st user_input response)
  | Except.error e => ("Произошла ошибка: ".data ++ e, st)

/-- SueAgent.handle_md_web_command (sue_agent.py lines 122-143).  The
event-loop time used for the context timestamp is the parameter evtime. -/
def handle_md_web_command (handle : Str → Str) (net : HttpOutcome)
    (st : AgentState) (cache : WebCache CacheVal) (now evtime : Nat)
    (url : Str) : Str × AgentState × WebCache CacheVal :=
  let r := process_webpage_async handle net url cache now
  let markdown_content := r.1
  if startsWithL "Ошибка".data markdown_content then (markdown_content, st, r.2)
  else
    let st1 := { st with
      context_pages := upsertEntry st.context_pages url markdown_content evtime,
      current_context := some url,
      last_url := some url }
    ("Контент страницы ".data ++ url ++ " добавлен в контекст в формате markdown.".data,
     st1, r.2)

/-- The per-result block of search_and_respond, enumerating from 1. -/
def formatResultsAux : Nat → List SearchResult → Str
  | _, [] => []
  | i, r :: t =>
    "\nРезультат ".data ++ natStr i ++ ":\nЗаголовок: ".data ++ r.title
      ++ "\nURL: ".data ++ r.link ++ "\nОписание: ".data ++ r.snippet
      ++ "\n".data ++ formatResultsAux (i + 1) t

/-- formatted_results of search_and_respond. -/
def format_results (results : List SearchResult) : Str :=
  formatResultsAux 1 results

/-- The search-grounded prompt template of search_and_respond. -/
def search_prompt_of (query formatted : Str) : Str :=
  "На основе следующих результатов поиска ответь на вопрос пользователя.\nДай полный и информативный ответ, используя найденную информацию.\n\nВопрос: ".data
    ++ query
    ++ "\n\nРезультаты поиска:\n".data
    ++ formatted
    ++ "\n\nПожалуйста, дай структурированный ответ на русском языке.".data

/-- SueAgent.search_and_respond (sue_agent.py lines 145-181), with
num_results fixed to 3 as at the call site in the source. -/
def search_and_respond (provider : Str → Nat → Except Str (List RawResult))
    (invoke : Model) (st : AgentState) (cache : WebCache CacheVal)
    (now : Nat) (query : Str) : Str × AgentState × WebCache CacheVal :=
  let sr := search_web provider cache now query 3
  if sr.1.isEmpty then
    ("Извините, не удалось найти информацию по вашему запросу.".data, st, sr.2)
  else
    match invoke (search_prompt_of query (format_results sr.1)) st.chat_history with
    | Except.ok response => (response, add_to_history st query response, sr.2)
    | Except.error e => ("Произошла ошибка при поиске: ".data ++ e, st, sr.2)

/-- The page-grounded prompt template of process_webpage. -/
def webpage_prompt_of (prompt markdown : Str) : Str :=
  "Проанализируй следующий текст и ответь на запрос, учитывая историю разговора.\nЗапрос: ".data
    ++ prompt
    ++ "\n\nСодержимое страницы:\n".data
    ++ markdown
    ++ "\n\nПожалуйста, отвечай на основе предоставленного текста и истории разговора.".data

/-- SueAgent.process_webpage (sue_agent.py lines 183-219). -/
def process_webpage (handle : Str → Str) (net : HttpOutcome) (invoke : Model)
    (st : AgentState) (cache : WebCache CacheVal) (now evtime : Nat)
    (url prompt : Str) (store_context : Bool) :
    Str × AgentState × WebCache CacheVal :=
  let r := process_webpage_async handle net url cache now
  let markdown_content := r.1
  if startsWithL "Ошибка".data markdown_content then (markdown_content, st, r.2)
  else
    let st1 :=
      if store_context then
        { st with
          context_pages := upsertEntry st.context_pages url markdown_content evtime,
          current_context := some url,
          last_url := some url }
      else st
    match invoke (webpage_prompt_of prompt markdown_content) st1.chat_history with
    | Except.ok response => (response, add_to_history st1 prompt response, r.2)
    | Except.error e => ("Ошибка при обработке страницы: ".data ++ e, st1, r.2)

/-- The small-talk phrase list of chat_with_context. -/
def general_chat_phrases : List Str :=
  ["как дела".data, "привет".data, "здравствуй".data, "пока".data,
   "до свидания".data, "спасибо".data, "благодарю".data, "доброе утро".data,
   "добрый день".data, "добрый вечер".data]

/-- any(phrase in user_input.lower() for phrase in general_chat_phrases). -/
def contains_general_phrase (input : Str) : Bool :=
  general_chat_phrases.any (fun p => listContains p (toLowerPy input))

/-- Python truthiness of the Optional[str] current_context: None and the
empty string are falsy. -/
def optTruthy : Option Str → Bool
  | none => false
  | some s => !s.isEmpty

/-- One context block: the header naming the source URL, then the page
content, as built in the for-loop of chat_with_context. -/
def page_block (url content : Str) : Str :=
  "=== Контекст из ".data ++ url ++ " ===\n".data ++ content

/-- full_context of chat_with_context: the blocks joined by blank lines. -/
def full_context_of (pages : List (Str × Str × Nat)) : Str :=
  joinSep "\n\n".data (pages.map (fun e => page_block e.1 e.2.1))

/-- The context-grounded prompt template of chat_with_context. -/
def context_prompt_of (input : Str) (pages : List (Str × Str × Nat)) : Str :=
  "Используй следующий контекст и историю разговора для ответа на вопрос.\nВопрос: ".data
    ++ input
    ++ "\n\nКонтекст:\n".data
    ++ full_context_of pages
    ++ "\n\nЕсли вопрос не связан с контекстом или это общий вопрос, используй историю разговора.".data

/-- SueAgent.chat_with_context (sue_agent.py lines 221-261). -/
def chat_with_context (invoke : Model) (st : AgentState) (user_input : Str) :
    Str × AgentState :=
  if !(optTruthy st.current_context) || st.context_pages.isEmpty then
    chat invoke st user_input
  else if contains_general_phrase user_input then
    chat invoke st user_input
  else
    match invoke (context_prompt_of user_input st.context_pages) st.chat_history with
    | Except.ok r => (r, add_to_history st user_input r)
    | Except.error e => ("Произошла ошибка: ".data ++ e, st)

/-- A fresh agent session state, as after SueAgent.__init__. -/
def initialAgent : AgentState := ⟨[], none, none, []⟩

/-! ## Helper lemmas about the cache's association list -/

theorem getEntry_upsertEntry_self {α : Type} :
    ∀ (l : List (Str × α × Nat)) (k : Str) (v : α) (n : Nat),
      getEntry (upsertEntry l k v n) k = some (v, n) := by
  intro l k v n
  induction l with
  | nil => simp [upsertEntry, getEntry]
  | cons e t ih =>
    by_cases h : e.1 = k
    · simp [upsertEntry, if_pos h, getEntry]
    · simp only [upsertEntry, if_neg h, getEntry, if_neg h]
      exact ih

theorem getEntry_eq_none_of_not_mem {α : Type} :
    ∀ (l : List (Str × α × Nat)) (k : Str),
      k ∉ l.map (fun e => e.1) → getEntry l k = none := by
  intro l k h
  induction l with
  | nil => rfl
  | cons e t ih =>
    simp only [List.map_cons, List.mem_cons] at h
    push_neg at h
    have h1 : ¬ e.1 = k := fun hh => h.1 hh.symm
    simp only [getEntry, if_neg h1]
    exact ih h.2

theorem removeKey_sublist {α : Type} (k : Str) :
    ∀ l : List (Str × α × Nat), List.Sublist (removeKey l k) l := by
  intro l
  induction l with
  | nil => simp [removeKey]
  | cons e t ih =>
    by_cases h : e.1 = k
    · rw [removeKey, if_pos h]
      exact List.sublist_cons_self e t
    · rw [removeKey, if_neg h]
      exact List.Sublist.cons₂ e ih

theorem keysNodup_removeKey {α : Type} (l : List (Str × α × Nat)) (k : Str)
    (h : (l.map (fun e => e.1)).Nodup) :
    ((removeKey l k).map (fun e => e.1)).Nodup :=
  h.sublist ((removeKey_sublist k l).map _)

theorem mem_keys_upsertEntry {α : Type} :
    ∀ (l : List (Str × α × Nat)) (k : Str) (v : α) (n : Nat) (x : Str),
      x ∈ (upsertEntry l k v n).map (fun e => e.1) →
        x = k ∨ x ∈ l.map (fun e => e.1) := by
  intro l k v n x h
  induction l with
  | nil => simpa [upsertEntry] using h
  | cons e t ih =>
    by_cases he : e.1 = k
    · rw [upsertEntry, if_pos he] at h
      simp only [List.map_cons, List.mem_cons] at h ⊢
      rcases h with h | h
      · exact Or.inl h
      · exact Or.inr (Or.inr h)
    · rw [upsertEntry, if_neg he] at h
      simp only [List.map_cons, List.mem_cons] at h ⊢
      rcases h with h | h
      · exact Or.inr (Or.inl h)
      · rcases ih h with h' | h'
        · exact Or.inl h'
        · exact Or.inr (Or.inr h')

theorem keysNodup_upsertEntry {α : Type} :
    ∀ (l : List (Str × α × Nat)) (k : Str) (v : α) (n : Nat),
      (l.map (fun e => e.1)).Nodup →
      ((upsertEntry l k v n).map (fun e => e.1)).Nodup := by
  intro l k v n h
  induction l with
  | nil => simp [upsertEntry]
  | cons e t ih =>
    rw [List.map_cons, List.nodup_cons] at h
    by_cases he : e.1 = k
    · rw [upsertEntry, if_pos he, List.map_cons, List.nodup_cons]
      exact ⟨he ▸ h.1, h.2⟩
    · rw [upsertEntry, if_neg he, List.map_cons, List.nodup_cons]
      refine ⟨fun hmem => ?_, ih h.2⟩
      rcases mem_keys_upsertEntry t k v n e.1 hmem with h' | h'
      · exact he h'
      · exact h.1 h'

theorem getEntry_removeKey_self {α : Type} :
    ∀ (l : List (Str × α × Nat)) (k : Str),
      (l.map (fun e => e.1)).Nodup → getEntry (removeKey l k) k = none := by
  intro l k h
  induction l with
  | nil => rfl
  | cons e t ih =>
    rw [List.map_cons, List.nodup_cons] at h
    by_cases he : e.1 = k
    · rw [removeKey, if_pos he]
      exact getEntry_eq_none_of_not_mem t k (he ▸ h.1)
    · rw [removeKey, if_neg he, getEntry, if_neg he]
      exact ih h.2

theorem keysNodup_set {α : Type} (c : WebCache α) (k : Str) (v : α) (n : Nat)
    (h : (c.cache.map (fun e => e.1)).Nodup) :
    (((WebCache.set c k v n).cache).map (fun e => e.1)).Nodup := by
  unfold WebCache.set evictIfFull
  apply keysNodup_upsertEntry
  split
  · split
    · exact h
    · exact keysNodup_removeKey _ _ h
  · exact h

/-! ## Claim theorems -/

/-- C1: the claim says that for a URL whose 200-status body converts to
empty text, fetch returns the NoContent failure, nothing is cached, and
handle_md_web_command / process_webpage return the failure text without
adding a ContextPage or updating currentContext.  The first two parts hold,
but the callers detect failures only by the text starting with the word
Ошибка, and the NoContent message does not: at this concrete input both
callers store the failure text as a ContextPage, set current_context, and
handle_md_web_command reports success.  This contradicts the stated
error-propagation contract, so the code, not the claim, is at fault. -/
theorem C1_nocontent_bug :
    (process_webpage_async (fun _ => [' ']) (HttpOutcome.response 200 "<html></html>".data)
        "http://x".data (emptyCache CacheVal 3600 100) 0).1
      = "Не удалось извлечь контент".data ∧
    getEntry ((process_webpage_async (fun _ => [' ']) (HttpOutcome.response 200 "<html></html>".data)
        "http://x".data (emptyCache CacheVal 3600 100) 0).2).cache "http://x".data = none ∧
    (handle_md_web_command (fun _ => [' ']) (HttpOutcome.response 200 "<html></html>".data)
        initialAgent (emptyCache CacheVal 3600 100) 0 0 "http://x".data).2.1.context_pages
      = [("http://x".data, "Не удалось извлечь контент".data, 0)] ∧
    (handle_md_web_command (fun _ => [' ']) (HttpOutcome.response 200 "<html></html>".data)
        initialAgent (emptyCache CacheVal 3600 100) 0 0 "http://x".data).2.1.current_context
      = some "http://x".data ∧
    (handle_md_web_command (fun _ => [' ']) (HttpOutcome.response 200 "<html></html>".data)
        initialAgent (emptyCache CacheVal 3600 100) 0 0 "http://x".data).1
      = "Контент страницы http://x добавлен в контекст в формате markdown.".data ∧
    (process_webpage (fun _ => [' ']) (HttpOutcome.response 200 "<html></html>".data)
        (fun _ _ => Except.ok "ответ".data) initialAgent (emptyCache CacheVal 3600 100)
        0 0 "http://x".data "вопрос".data true).2.1.context_pages
      = [("http://x".data, "Не удалось извлечь контент".data, 0)] := by
  refine ⟨rfl, rfl, rfl, rfl, rfl, rfl⟩

/-- C2: after set(k, v) at time tset, get(k) at time tget returns v iff
tget - tset ≤ ttl; otherwise it returns none and the entry is gone from
the resulting cache state.  The hypotheses keep the model inside Python's
reachable states: a positive max_size (min() on an empty dict would raise)
and duplicate-free dict keys. -/
theorem C2_cache_ttl_roundtrip {α : Type} (c : WebCache α) (key : Str) (v : α)
    (tset tget : Nat) (hms : 1 ≤ c.max_size)
    (hnd : (c.cache.map (fun e => e.1)).Nodup) (hle : tset ≤ tget) :
    (tget - tset ≤ c.ttl → ((WebCache.set c key v tset).get key tget).1 = some v) ∧
    (c.ttl < tget - tset →
      ((WebCache.set c key v tset).get key tget).1 = none ∧
      getEntry (((WebCache.set c key v tset).get key tget).2).cache key = none) := by
  have hkey : getEntry (WebCache.set c key v tset).cache key = some (v, tset) := by
    show getEntry (upsertEntry _ key v tset) key = some (v, tset)
    exact getEntry_upsertEntry_self _ key v tset
  have httl : (WebCache.set c key v tset).ttl = c.ttl := rfl
  have hnd2 := keysNodup_set c key v tset hnd
  constructor
  · intro h
    have hnot : ¬ c.ttl < tget - tset := Nat.not_lt.mpr h
    simp [WebCache.get, hkey, httl, hnot]
  · intro h
    refine ⟨?_, ?_⟩
    · simp [WebCache.get, hkey, httl, h]
    · simp only [WebCache.get, hkey, httl, if_pos h]
      exact getEntry_removeKey_self _ key hnd2

/-- Witness for C2 at a concrete cache: a fresh read within the TTL hits,
a read past the TTL misses. -/
theorem C2_cache_ttl_roundtrip_witness :
    ((WebCache.set (emptyCache Nat 10 5) "k".data 7 0).get "k".data 3).1 = some 7 ∧
    ((WebCache.set (emptyCache Nat 10 5) "k".data 7 0).get "k".data 20).1 = none := by
  have h1 := C2_cache_ttl_roundtrip (emptyCache Nat 10 5) "k".data 7 0 3
    (by decide) (by decide) (by decide)
  have h2 := C2_cache_ttl_roundtrip (emptyCache Nat 10 5) "k".data 7 0 20
    (by decide) (by decide) (by decide)
  exact ⟨h1.1 (by decide), (h2.2 (by decide)).1⟩

theorem minByTs_le {α : Type} :
    ∀ (l : List (Str × α × Nat)) (best x : Str × α × Nat),
      x ∈ best :: l → (minByTs best l).2.2 ≤ x.2.2 := by
  intro l
  induction l with
  | nil =>
    intro best x hx
    rcases List.mem_cons.mp hx with rfl | hx'
    · exact le_refl _
    · cases hx'
  | cons e t ih =>
    intro best x hx
    by_cases hlt : e.2.2 < best.2.2
    · rw [minByTs, if_pos hlt]
      rcases List.mem_cons.mp hx with rfl | hx'
      · exact le_of_lt (lt_of_le_of_lt (ih e e (List.mem_cons_self e t)) hlt)
      · exact ih e x hx'
    · rw [minByTs, if_neg hlt]
      rcases List.mem_cons.mp hx with rfl | hx'
      · exact ih x x (List.mem_cons_self x t)
      · rcases List.mem_cons.mp hx' with rfl | hx''
        · exact le_trans (ih best best (List.mem_cons_self best t)) (Nat.le_of_not_lt hlt)
        · exact ih best x (List.mem_cons.mpr (Or.inr hx''))

theorem minByTs_decomp {α : Type} :
    ∀ (l : List (Str × α × Nat)) (best : Str × α × Nat),
      ∃ pre post, best :: l = pre ++ (minByTs best l) :: post ∧
        ∀ x ∈ pre, (minByTs best l).2.2 < x.2.2 := by
  intro l
  induction l with
  | nil => exact fun best => ⟨[], [], rfl, by simp⟩
  | cons e t ih =>
    intro best
    by_cases hlt : e.2.2 < best.2.2
    · have hmin : minByTs best (e :: t) = minByTs e t := by rw [minByTs, if_pos hlt]
      obtain ⟨pre, post, hdec, hpre⟩ := ih e
      refine ⟨best :: pre, post, ?_, ?_⟩
      · rw [hmin, List.cons_append, ← hdec]
      · intro x hx
        rw [hmin]
        rcases List.mem_cons.mp hx with rfl | hx'
        · exact lt_of_le_of_lt (minByTs_le t e e (List.mem_cons_self e t)) hlt
        · exact hpre x hx'
    · have hmin : minByTs best (e :: t) = minByTs best t := by rw [minByTs, if_neg hlt]
      obtain ⟨pre, post, hdec, hpre⟩ := ih best
      cases pre with
      | nil =>
        simp only [List.nil_append] at hdec
        have hbest : best = minByTs best t := (List.cons.injEq _ _ _ _).mp hdec |>.1
        refine ⟨[], e :: t, ?_, by simp⟩
        rw [hmin, ← hbest]
        simp
      | cons p pre' =>
        simp only [List.cons_append] at hdec
        have h1 : best = p := ((List.cons.injEq _ _ _ _).mp hdec).1
        have h2 : t = pre' ++ minByTs best t :: post := ((List.cons.injEq _ _ _ _).mp hdec).2
        refine ⟨best :: e :: pre', post, ?_, ?_⟩
        · rw [hmin]
          simp only [List.cons_append]
          rw [← h2]
        · intro x hx
          rw [hmin]
          have hminbest : (minByTs best t).2.2 < best.2.2 := by
            have := hpre p (List.mem_cons_self p pre')
            rw [← h1] at this
            exact this
          rcases List.mem_cons.mp hx with rfl | hx'
          · exact hminbest
          · rcases List.mem_cons.mp hx' with rfl | hx''
            · exact lt_of_lt_of_le hminbest (Nat.le_of_not_lt hlt)
            · exact hpre x (List.mem_cons.mpr (Or.inr hx''))

theorem minByTs_mem {α : Type} :
    ∀ (l : List (Str × α × Nat)) (best : Str × α × Nat),
      minByTs best l ∈ best :: l := by
  intro l best
  obtain ⟨pre, post, hdec, _⟩ := minByTs_decomp l best
  rw [hdec]
  exact List.mem_append.mpr (Or.inr (List.mem_cons_self _ _))

theorem upsertEntry_length_le {α : Type} :
    ∀ (l : List (Str × α × Nat)) (k : Str) (v : α) (n : Nat),
      (upsertEntry l k v n).length ≤ l.length + 1 := by
  intro l k v n
  induction l with
  | nil => simp [upsertEntry]
  | cons e t ih =>
    by_cases h : e.1 = k
    · rw [upsertEntry, if_pos h]
      simp
    · rw [upsertEntry, if_neg h]
      simpa using Nat.succ_le_succ ih

theorem removeKey_length_of_mem {α : Type} :
    ∀ (l : List (Str × α × Nat)) (k : Str),
      k ∈ l.map (fun e => e.1) → (removeKey l k).length + 1 = l.length := by
  intro l k h
  induction l with
  | nil => cases h
  | cons e t ih =>
    by_cases he : e.1 = k
    · rw [removeKey, if_pos he]
      rfl
    · rw [removeKey, if_neg he]
      have hmem : k ∈ t.map (fun e => e.1) := by
        rcases List.mem_cons.mp h with h' | h'
        · exact absurd h'.symm he
        · exact h'
      simpa [List.length_cons] using congrArg Nat.succ (ih hmem)

theorem length_get_le {α : Type} (c : WebCache α) (k : Str) (now : Nat) :
    ((WebCache.get c k now).2).cache.length ≤ c.cache.length := by
  unfold WebCache.get
  split
  · exact le_refl _
  · split
    · exact (removeKey_sublist k c.cache).length_le
    · exact le_refl _

theorem length_set_le {α : Type} (c : WebCache α) (k : Str) (v : α) (now : Nat)
    (hms : 1 ≤ c.max_size) (h : c.cache.length ≤ c.max_size) :
    ((WebCache.set c k v now).cache).length ≤ c.max_size := by
  show (upsertEntry (evictIfFull c) k v now).length ≤ c.max_size
  refine le_trans (upsertEntry_length_le _ k v now) ?_
  unfold evictIfFull
  by_cases hfull : c.max_size ≤ c.cache.length
  · rw [if_pos hfull]
    have hlen : c.cache.length = c.max_size := le_antisymm h hfull
    split
    next heq =>
      rw [heq] at hlen
      simp at hlen
      omega
    next e rest heq =>
      have hmem : (minByTs e rest).1 ∈ (e :: rest).map (fun x => x.1) :=
        List.mem_map.mpr ⟨minByTs e rest, minByTs_mem rest e, rfl⟩
      have hrm := removeKey_length_of_mem (e :: rest) (minByTs e rest).1 hmem
      rw [heq] at hlen ⊢
      omega
  · rw [if_neg hfull]
    omega

theorem max_size_runOp {α : Type} (c : WebCache α) (op : CacheOp α) :
    (runOp c op).max_size = c.max_size := by
  cases op with
  | get k now =>
    show ((WebCache.get c k now).2).max_size = c.max_size
    unfold WebCache.get
    split
    · rfl
    · split <;> rfl
  | set k v now => rfl

theorem runOps_bound {α : Type} :
    ∀ (ops : List (CacheOp α)) (c : WebCache α),
      1 ≤ c.max_size → c.cache.length ≤ c.max_size →
      (runOps c ops).max_size = c.max_size ∧
      (runOps c ops).cache.length ≤ c.max_size := by
  intro ops
  induction ops with
  | nil => exact fun c _ h => ⟨rfl, h⟩
  | cons op t ih =>
    intro c h1 h2
    have hstep : (runOp c op).cache.length ≤ (runOp c op).max_size := by
      rw [max_size_runOp]
      cases op with
      | get k now => exact le_trans (length_get_le c k now) h2
      | set k v now => exact length_set_le c k v now h1 h2
    have hms : 1 ≤ (runOp c op).max_size := by rw [max_size_runOp]; exact h1
    have := ih (runOp c op) hms hstep
    rw [max_size_runOp] at this
    exact ⟨this.1, this.2⟩

theorem removeKey_of_decomp {α : Type} :
    ∀ (pre : List (Str × α × Nat)) (ev : Str × α × Nat) (post : List (Str × α × Nat)),
      (∀ x ∈ pre, ¬ x.1 = ev.1) →
      removeKey (pre ++ ev :: post) ev.1 = pre ++ post := by
  intro pre ev post h
  induction pre with
  | nil => simp [removeKey]
  | cons p pre' ih =>
    rw [List.cons_append, removeKey, if_neg (h p (List.mem_cons_self p pre')), List.cons_append]
    rw [ih (fun x hx => h x (List.mem_cons.mpr (Or.inr hx)))]

/-- C3 -/
theorem C3_cache_bound_and_eviction (α : Type) :
    (∀ ttl ms, 1 ≤ ms → ∀ ops : List (CacheOp α),
        (runOps (emptyCache α ttl ms) ops).cache.length ≤ ms) ∧
    (∀ (c : WebCache α) (k : Str) (v : α) (now : Nat),
        1 ≤ c.max_size → c.max_size ≤ c.cache.length →
        (c.cache.map (fun e => e.1)).Nodup →
        ∃ pre ev post,
          c.cache = pre ++ ev :: post ∧
          (∀ x ∈ c.cache, ev.2.2 ≤ x.2.2) ∧
          (∀ x ∈ pre, ev.2.2 < x.2.2) ∧
          (WebCache.set c k v now).cache = upsertEntry (pre ++ post) k v now) := by
  constructor
  · intro ttl ms hms ops
    exact (runOps_bound ops (emptyCache α ttl ms) hms (by simp [emptyCache])).2
  · intro c k v now hms hfull hnd
    rcases hc : c.cache with _ | ⟨e, rest⟩
    · rw [hc] at hfull
      simp at hfull
      omega
    · obtain ⟨pre, post, hdec, hpre⟩ := minByTs_decomp rest e
      refine ⟨pre, minByTs e rest, post, hdec, ?_, hpre, ?_⟩
      · intro x hx
        exact minByTs_le rest e x hx
      · show upsertEntry (evictIfFull c) k v now = _
        have hpreKey : ∀ x ∈ pre, ¬ x.1 = (minByTs e rest).1 := by
          have hnd2 : ((pre ++ minByTs e rest :: post).map (fun x => x.1)).Nodup := by
            rw [← hdec, ← hc]
            exact hnd
          rw [List.map_append, List.map_cons] at hnd2
          have hdisj := List.disjoint_of_nodup_append hnd2
          intro x hx hkey
          exact hdisj (List.mem_map.mpr ⟨x, hx, hkey⟩) (List.mem_cons_self _ _)
        have hbase : evictIfFull c = pre ++ post := by
          unfold evictIfFull
          rw [if_pos hfull]
          split
          next heq =>
            rw [hc] at heq
            exact absurd heq (List.cons_ne_nil e rest)
          next e2 rest2 heq =>
            rw [hc] at heq
            injection heq with he hr
            rw [← he, ← hr, hc, hdec]
            exact removeKey_of_decomp pre (minByTs e rest) post hpreKey
        rw [hbase]

/-- Witness for C3: two-entry bound and a concrete eviction of the oldest
entry. -/
theorem C3_cache_bound_and_eviction_witness :
    (runOps (emptyCache Nat 10 2)
      [CacheOp.set "a".data 1 0, CacheOp.set "b".data 2 1,
       CacheOp.set "c".data 3 2]).cache.length ≤ 2 ∧
    ∃ pre ev post,
      (WebCache.mk 10 2 [("a".data, 1, 5), ("b".data, 2, 3)] : WebCache Nat).cache
          = pre ++ ev :: post ∧
      (∀ x ∈ (WebCache.mk 10 2 [("a".data, 1, 5), ("b".data, 2, 3)] : WebCache Nat).cache,
          ev.2.2 ≤ x.2.2) ∧
      (∀ x ∈ pre, ev.2.2 < x.2.2) ∧
      ((WebCache.mk 10 2 [("a".data, 1, 5), ("b".data, 2, 3)] : WebCache Nat).set
          "c".data 3 7).cache = upsertEntry (pre ++ post) "c".data 3 7 := by
  refine ⟨(C3_cache_bound_and_eviction Nat).1 10 2 (by decide) _,
          (C3_cache_bound_and_eviction Nat).2 _ "c".data 3 7 (by decide) (by decide) (by decide)⟩

theorem dropWhile_eq_self_of_all {p : Char → Bool} :
    ∀ l : Str, (∀ c ∈ l, p c = false) → l.dropWhile p = l := by
  intro l h
  cases l with
  | nil => rfl
  | cons c t => rw [List.dropWhile_cons, if_neg (by simp [h c (List.mem_cons_self c t)])]

theorem toLowerPy_append (a b : Str) : toLowerPy (a ++ b) = toLowerPy a ++ toLowerPy b := by
  simp [toLowerPy]

theorem startsWithL_append_self : ∀ (p X : Str), startsWithL p (p ++ X) = true := by
  intro p X
  induction p with
  | nil => rfl
  | cons c t ih => simp [startsWithL, ih]

theorem startsWithL_false_head (a b : Char) (ps ss : Str) (h : (a == b) = false) :
    startsWithL (a :: ps) (b :: ss) = false := by
  simp [startsWithL, h]

theorem stripWordsLoop_skip :
    ∀ (ws : List Str) (q : Str),
      (∀ w ∈ ws, startsWithL w (toLowerPy q) = false) → stripWordsLoop ws q = q := by
  intro ws
  induction ws with
  | nil => intro q _; rfl
  | cons w t ih =>
    intro q h
    rw [stripWordsLoop, if_neg (by simp [h w (List.mem_cons_self w t)])]
    exact ih q (fun w2 h2 => h w2 (List.mem_cons.mpr (Or.inr h2)))

theorem removeQuotes_eq_self (q : Str) (h : ∀ c ∈ q, ¬ c = '"') : removeQuotes q = q := by
  rw [removeQuotes, List.filter_eq_self]
  intro c hc
  simp [h c hc]

theorem rstripQ_eq_self (q : Str) (h : ∀ c ∈ q, ¬ c = '?') : rstripQ q = q := by
  rw [rstripQ, dropWhile_eq_self_of_all _ (by intro c hc; simp [h c (List.mem_reverse.mp hc)]),
      List.reverse_reverse]

theorem mem_removeQuotes {c : Char} {s : Str} (h : c ∈ removeQuotes s) :
    c ∈ s ∧ ¬ c = '"' := by
  rw [removeQuotes] at h
  have := List.mem_filter.mp h
  refine ⟨this.1, by simpa using this.2⟩

theorem mem_rstripQ {c : Char} {s : Str} (h : c ∈ rstripQ s) : c ∈ s := by
  rw [rstripQ] at h
  rw [List.mem_reverse] at h
  exact List.mem_reverse.mp ((List.dropWhile_sublist _).subset h)

theorem mem_stripWs {c : Char} {s : Str} (h : c ∈ stripWs s) : c ∈ s := by
  rw [stripWs, rstripWs] at h
  rw [List.mem_reverse] at h
  have h2 : c ∈ (lstripWs s).reverse := (List.dropWhile_sublist _).subset h
  rw [List.mem_reverse, lstripWs] at h2
  exact (List.dropWhile_sublist _).subset h2

theorem mem_stripWordsLoop {c : Char} :
    ∀ (ws : List Str) (s : Str), c ∈ stripWordsLoop ws s → c ∈ s := by
  intro ws
  induction ws with
  | nil => intro s h; exact h
  | cons w t ih =>
    intro s h
    rw [stripWordsLoop] at h
    split at h
    · have h2 := ih _ h
      rw [lstripWs] at h2
      exact (List.drop_subset _ _) ((List.dropWhile_sublist _).subset h2)
    · exact ih _ h

theorem lstripWs_space_cons (rest : Str) : lstripWs (' ' :: rest) = lstripWs rest := by
  rw [lstripWs, List.dropWhile_cons, if_pos (by decide), lstripWs]

theorem toLowerPy_word_space (w rest : Str) (h : toLowerPy w = w) :
    toLowerPy (w ++ ' ' :: rest) = w ++ ' ' :: toLowerPy rest := by
  rw [show w ++ ' ' :: rest = w ++ [' '] ++ rest from by simp, toLowerPy_append, toLowerPy_append, h]
  simp [toLowerPy, lowerChar]

theorem stripWordsLoop_match_head (w : Str) (ws : List Str) (rest : Str)
    (hlw : toLowerPy w = w) (hlrest : lstripWs rest = rest) :
    stripWordsLoop (w :: ws) (w ++ ' ' :: rest) = stripWordsLoop ws rest := by
  rw [stripWordsLoop]
  rw [if_pos (by rw [toLowerPy_word_space w rest hlw]; exact startsWithL_append_self w _)]
  rw [List.drop_left, lstripWs_space_cons, hlrest]

theorem stripWordsLoop_skip_head (w : Str) (ws : List Str) (q : Str)
    (h : startsWithL w (toLowerPy q) = false) :
    stripWordsLoop (w :: ws) q = stripWordsLoop ws q := by
  rw [stripWordsLoop, if_neg (by simp [h])]

theorem startsWithL_concrete_false (a : Char) (ps : Str) (b : Char) (bs X : Str)
    (h : (a == b) = false) :
    startsWithL (a :: ps) ((b :: bs) ++ X) = false := by
  rw [List.cons_append]
  exact startsWithL_false_head a b ps _ h

theorem clean_branchA (w rest : Str)
    (hwq : ∀ c ∈ w, ¬ c = '"' ∧ ¬ c = '?')
    (hrest : ∀ c ∈ rest, ¬ c = '"' ∧ ¬ c = '?')
    (hrun : stripWordsLoop searchWords (w ++ ' ' :: rest) = rest) :
    clean_search_query (w ++ ' ' :: rest) = stripWs rest := by
  rw [clean_search_query]
  have hnq : ∀ c ∈ (w ++ ' ' :: rest), ¬ c = '"' := by
    intro c hc
    rcases List.mem_append.mp hc with h | h
    · exact (hwq c h).1
    · rcases List.mem_cons.mp h with rfl | h2
      · decide
      · exact (hrest c h2).1
  have hnm : ∀ c ∈ (w ++ ' ' :: rest), ¬ c = '?' := by
    intro c hc
    rcases List.mem_append.mp hc with h | h
    · exact (hwq c h).2
    · rcases List.mem_cons.mp h with rfl | h2
      · decide
      · exact (hrest c h2).2
  rw [removeQuotes_eq_self _ hnq, rstripQ_eq_self _ hnm, hrun]

/-- C8 -/
theorem C8_query_normalization :
    clean_search_query "что такое нейросеть?".data = "нейросеть".data ∧
    (∀ q : Str, ∀ c ∈ clean_search_query q, ¬ c = '"') ∧
    (∀ q : Str, clean_search_query (q ++ ['?']) = clean_search_query q) ∧
    (∀ w ∈ searchWords, ∀ rest : Str,
      (∀ c ∈ rest, ¬ c = '"' ∧ ¬ c = '?') →
      (∀ w2 ∈ searchWords, startsWithL w2 (toLowerPy rest) = false) →
      lstripWs rest = rest →
      clean_search_query (w ++ ' ' :: rest) = stripWs rest ∧
      clean_search_query rest = stripWs rest) := by
  refine ⟨by decide, ?_, ?_, ?_⟩
  · intro q c hc
    rw [clean_search_query] at hc
    exact (mem_removeQuotes (mem_rstripQ (mem_stripWordsLoop _ _ (mem_stripWs hc)))).2
  · intro q
    rw [clean_search_query, clean_search_query]
    have h1 : removeQuotes (q ++ ['?']) = removeQuotes q ++ ['?'] := by
      rw [removeQuotes, removeQuotes, List.filter_append]
      rfl
    have h2 : rstripQ (removeQuotes q ++ ['?']) = rstripQ (removeQuotes q) := by
      rw [rstripQ, rstripQ, List.reverse_append]
      rw [show (['?'] : Str).reverse ++ (removeQuotes q).reverse
            = '?' :: (removeQuotes q).reverse from rfl]
      rw [List.dropWhile_cons, if_pos (by decide)]
    rw [h1, h2]
  · intro w hw rest hrest hwords hlstrip
    have hsub234 : ∀ w2 ∈ ["поищи".data, "расскажи".data, "что такое".data],
        w2 ∈ searchWords := by
      intro w2 h2
      rw [searchWords]
      exact List.mem_cons_of_mem _ h2
    have hsub34 : ∀ w2 ∈ ["расскажи".data, "что такое".data], w2 ∈ searchWords := by
      intro w2 h2
      exact hsub234 w2 (List.mem_cons_of_mem _ h2)
    have hsub4 : ∀ w2 ∈ ["что такое".data], w2 ∈ searchWords := by
      intro w2 h2
      exact hsub34 w2 (List.mem_cons_of_mem _ h2)
    have hclean_rest : clean_search_query rest = stripWs rest := by
      rw [clean_search_query, removeQuotes_eq_self rest (fun c hc => (hrest c hc).1),
          rstripQ_eq_self rest (fun c hc => (hrest c hc).2),
          stripWordsLoop_skip _ _ hwords]
    fin_cases hw
    · refine ⟨clean_branchA _ rest (by decide) hrest ?_, hclean_rest⟩
      rw [searchWords, stripWordsLoop_match_head _ _ rest (by decide) hlstrip]
      exact stripWordsLoop_skip _ rest (fun w2 h2 => hwords w2 (hsub234 w2 h2))
    · refine ⟨clean_branchA _ rest (by decide) hrest ?_, hclean_rest⟩
      rw [searchWords]
      rw [stripWordsLoop_skip_head _ _ _ (by
        rw [toLowerPy_word_space _ rest (by decide)]
        exact startsWithL_concrete_false 'н' "айди".data 'п' "оищи".data _ (by decide))]
      rw [stripWordsLoop_match_head _ _ rest (by decide) hlstrip]
      exact stripWordsLoop_skip _ rest (fun w2 h2 => hwords w2 (hsub34 w2 h2))
    · refine ⟨clean_branchA _ rest (by decide) hrest ?_, hclean_rest⟩
      rw [searchWords]
      rw [stripWordsLoop_skip_head _ _ _ (by
        rw [toLowerPy_word_space _ rest (by decide)]
        exact startsWithL_concrete_false 'н' "айди".data 'р' "асскажи".data _ (by decide))]
      rw [stripWordsLoop_skip_head _ _ _ (by
        rw [toLowerPy_word_space _ rest (by decide)]
        exact startsWithL_concrete_false 'п' "оищи".data 'р' "асскажи".data _ (by decide))]
      rw [stripWordsLoop_match_head _ _ rest (by decide) hlstrip]
      exact stripWordsLoop_skip _ rest (fun w2 h2 => hwords w2 (hsub4 w2 h2))
    · refine ⟨clean_branchA _ rest (by decide) hrest ?_, hclean_rest⟩
      rw [searchWords]
      rw [stripWordsLoop_skip_head _ _ _ (by
        rw [toLowerPy_word_space _ rest (by decide)]
        exact startsWithL_concrete_false 'н' "айди".data 'ч' "то такое".data _ (by decide))]
      rw [stripWordsLoop_skip_head _ _ _ (by
        rw [toLowerPy_word_space _ rest (by decide)]
        exact startsWithL_concrete_false 'п' "оищи".data 'ч' "то такое".data _ (by decide))]
      rw [stripWordsLoop_skip_head _ _ _ (by
        rw [toLowerPy_word_space _ rest (by decide)]
        exact startsWithL_concrete_false 'р' "асскажи".data 'ч' "то такое".data _ (by decide))]
      rw [stripWordsLoop_match_head _ _ rest (by decide) hlstrip]
      rfl

/-- Witness for C8: the fixed word найди followed by a space and a plain
query is stripped to the plain query. -/
theorem C8_query_normalization_witness :
    clean_search_query "найди кота".data = "кота".data := by
  have h4 := C8_query_normalization.2.2.2 "найди".data (by decide) "кота".data
    (by decide) (by decide) (by decide)
  have heq : "найди кота".data = "найди".data ++ ' ' :: "кота".data := by decide
  rw [heq, h4.1]
  decide

/-- C4 -/
theorem C4_search_retry (provider p1 p2 : Str → Nat → Except Str (List RawResult))
    (cache : WebCache CacheVal) (now : Nat) (query : Str) (num : Nat)
    (e : Str) (rs : List RawResult)
    (hmiss : searchCacheHit ((cache.get (searchCacheKey (clean_search_query query) num) now).1) = none)
    (hp : provider (clean_search_query query) num = Except.error e)
    (hr : provider (firstThreeKeywords (clean_search_query query)) num = Except.ok rs)
    (hne : ¬ rs.map toSearchResult = []) :
    (search_web provider cache now query num).1 = rs.map toSearchResult ∧
    getEntry ((search_web provider cache now query num).2).cache
        (searchCacheKey (clean_search_query query) num)
      = some (CacheVal.results (rs.map toSearchResult), now) ∧
    (p1 (clean_search_query query) num = p2 (clean_search_query query) num →
     p1 (firstThreeKeywords (clean_search_query query)) num
       = p2 (firstThreeKeywords (clean_search_query query)) num →
     search_web p1 cache now query num = search_web p2 cache now query num) := by
  have hemp : (rs.map toSearchResult).isEmpty = false := by
    cases hrs : rs.map toSearchResult with
    | nil => exact absurd hrs hne
    | cons a t => rfl
  refine ⟨?_, ?_, ?_⟩
  · rw [search_web]
    simp only [hmiss, hp, hr, hemp, Bool.false_eq_true, if_false]
  · rw [search_web]
    simp only [hmiss, hp, hr, hemp, Bool.false_eq_true, if_false]
    show getEntry ((WebCache.set _ _ _ now).cache) _ = _
    exact getEntry_upsertEntry_self _ _ _ _
  · intro h1 h2
    rw [search_web, search_web]
    simp only [h1, h2]

/-- Witness for C4: primary provider call fails, retry on the first three
tokens succeeds; the result is the retry's list and it is cached under the
original composite key. -/
theorem C4_search_retry_witness :
    (search_web
        (fun q _ => if q = "a b c".data
          then Except.ok [RawResult.mk "u".data "t".data "d".data]
          else Except.error "x".data)
        (emptyCache CacheVal 3600 100) 0 "a b c d".data 5).1
      = [SearchResult.mk "t".data "u".data "d".data] ∧
    getEntry ((search_web
        (fun q _ => if q = "a b c".data
          then Except.ok [RawResult.mk "u".data "t".data "d".data]
          else Except.error "x".data)
        (emptyCache CacheVal 3600 100) 0 "a b c d".data 5).2).cache
        (searchCacheKey (clean_search_query "a b c d".data) 5)
      = some (CacheVal.results [SearchResult.mk "t".data "u".data "d".data], 0) := by
  have h := C4_search_retry
    (fun q _ => if q = "a b c".data
      then Except.ok [RawResult.mk "u".data "t".data "d".data]
      else Except.error "x".data)
    (fun q _ => if q = "a b c".data
      then Except.ok [RawResult.mk "u".data "t".data "d".data]
      else Except.error "x".data)
    (fun q _ => if q = "a b c".data
      then Except.ok [RawResult.mk "u".data "t".data "d".data]
      else Except.error "x".data)
    (emptyCache CacheVal 3600 100) 0 "a b c d".data 5 "x".data
    [RawResult.mk "u".data "t".data "d".data]
    (by decide) (by rfl) (by rfl) (by decide)
  refine ⟨?_, ?_⟩
  · rw [h.1]
    decide
  · rw [h.2.1]
    decide

/-- C7 -/
theorem C7_search_failure_empty (provider : Str → Nat → Except Str (List RawResult))
    (cache : WebCache CacheVal) (now : Nat) (query : Str) (num : Nat)
    (hmiss : searchCacheHit ((cache.get (searchCacheKey (clean_search_query query) num) now).1) = none) :
    (∀ e1 e2 : Str,
      provider (clean_search_query query) num = Except.error e1 →
      provider (firstThreeKeywords (clean_search_query query)) num = Except.error e2 →
      search_web provider cache now query num
        = ([], (cache.get (searchCacheKey (clean_search_query query) num) now).2)) ∧
    (∀ rs : List RawResult,
      provider (clean_search_query query) num = Except.ok rs →
      rs.map toSearchResult = [] →
      search_web provider cache now query num
        = ([], (cache.get (searchCacheKey (clean_search_query query) num) now).2)) := by
  constructor
  · intro e1 e2 hp1 hp2
    rw [search_web]
    simp only [hmiss, hp1, hp2, List.isEmpty_nil, if_true]
  · intro rs hp hempty
    rw [search_web]
    simp only [hmiss, hp, hempty, List.isEmpty_nil, if_true]

/-- Witness for C7: a provider that always throws yields the empty list
and an unchanged cache. -/
theorem C7_search_failure_empty_witness :
    search_web (fun _ _ => Except.error "boom".data)
        (emptyCache CacheVal 3600 100) 0 "тест".data 3
      = ([], emptyCache CacheVal 3600 100) := by
  have h := C7_search_failure_empty (fun _ _ => Except.error "boom".data)
    (emptyCache CacheVal 3600 100) 0 "тест".data 3 (by decide)
  exact h.1 "boom".data "boom".data (by rfl) (by rfl)

theorem mem_joinSep_infix :
    ∀ (sep : Str) (l : List Str) (x : Str), x ∈ l → x <:+: joinSep sep l := by
  intro sep l
  induction l with
  | nil => intro x hx; cases hx
  | cons a t ih =>
    intro x hx
    cases t with
    | nil =>
      rcases List.mem_cons.mp hx with rfl | h
      · rw [joinSep]
      · cases h
    | cons b t2 =>
      rcases List.mem_cons.mp hx with rfl | h
      · rw [joinSep]
        exact ⟨[], sep ++ joinSep sep (b :: t2), by simp⟩
      · rw [joinSep]
        exact (ih x h).trans ⟨a ++ sep, [], by simp⟩

theorem page_block_infix_context_prompt (input : Str) (pages : List (Str × Str × Nat))
    (url content : Str) (ts : Nat) (hmem : (url, content, ts) ∈ pages) :
    page_block url content <:+: context_prompt_of input pages := by
  have h1 : page_block url content ∈ pages.map (fun e => page_block e.1 e.2.1) :=
    List.mem_map.mpr ⟨(url, content, ts), hmem, rfl⟩
  have h2 := mem_joinSep_infix "\n\n".data _ _ h1
  refine List.IsInfix.trans (show _ <:+: full_context_of pages from h2) ?_
  rw [context_prompt_of]
  refine ⟨"Используй следующий контекст и историю разговора для ответа на вопрос.\nВопрос: ".data
      ++ input ++ "\n\nКонтекст:\n".data,
    "\n\nЕсли вопрос не связан с контекстом или это общий вопрос, используй историю разговора.".data, ?_⟩
  simp

/-- C5 -/
theorem C5_context_branching (invoke : Model) (st : AgentState) (input : Str)
    (hctx : optTruthy st.current_context = true) (hp : st.context_pages ≠ []) :
    (contains_general_phrase input = true →
      chat_with_context invoke st input = chat invoke st input) ∧
    (contains_general_phrase input = false →
      (∀ url content ts, (url, content, ts) ∈ st.context_pages →
        page_block url content <:+: context_prompt_of input st.context_pages) ∧
      chat_with_context invoke st input
        = (match invoke (context_prompt_of input st.context_pages) st.chat_history with
           | Except.ok r => (r, add_to_history st input r)
           | Except.error e => ("Произошла ошибка: ".data ++ e, st))) := by
  have hcond : (!(optTruthy st.current_context) || st.context_pages.isEmpty) = false := by
    rw [hctx]
    cases hpp : st.context_pages with
    | nil => exact absurd hpp hp
    | cons a t => rfl
  have hcondne : ¬ ((!(optTruthy st.current_context) || st.context_pages.isEmpty) = true) := by
    rw [hcond]
    exact Bool.false_ne_true
  constructor
  · intro hgen
    rw [chat_with_context, if_neg hcondne, if_pos hgen]
  · intro hgen
    have hgenne : ¬ (contains_general_phrase input = true) := by
      rw [hgen]
      exact Bool.false_ne_true
    refine ⟨fun url content ts hmem =>
      page_block_infix_context_prompt input st.context_pages url content ts hmem, ?_⟩
    rw [chat_with_context, if_neg hcondne, if_neg hgenne]

/-- Witness for C5: with one stored page, the small-talk input привет takes
the plain-chat path, while a content question builds a prompt containing the
page's block. -/
theorem C5_context_branching_witness :
    chat_with_context (fun _ _ => Except.ok "ок".data)
        (AgentState.mk [("http://a".data, "стр".data, 0)] (some "http://a".data) none [])
        "привет".data
      = chat (fun _ _ => Except.ok "ок".data)
        (AgentState.mk [("http://a".data, "стр".data, 0)] (some "http://a".data) none [])
        "привет".data ∧
    page_block "http://a".data "стр".data
      <:+: context_prompt_of "что написано на странице?".data
            [("http://a".data, "стр".data, 0)] := by
  have h1 := C5_context_branching (fun _ _ => Except.ok "ок".data)
    (AgentState.mk [("http://a".data, "стр".data, 0)] (some "http://a".data) none [])
    "привет".data (by decide) (by decide)
  have h2 := C5_context_branching (fun _ _ => Except.ok "ок".data)
    (AgentState.mk [("http://a".data, "стр".data, 0)] (some "http://a".data) none [])
    "что написано на странице?".data (by decide) (by decide)
  exact ⟨h1.1 (by decide), (h2.2 (by decide)).1 "http://a".data "стр".data 0 (by decide)⟩

/-- C6 -/
theorem C6_history_append (invoke : Model)
    (hok : ∀ p h, ∃ r, invoke p h = Except.ok r) :
    (∀ (st : AgentState) (input : Str), ∃ r,
      (chat invoke st input).2.chat_history
        = st.chat_history ++ [Msg.mk Role.user input, Msg.mk Role.assistant r]) ∧
    (∀ provider (st : AgentState) cache now (query : Str),
      ¬ (search_web provider cache now query 3).1 = [] →
      ∃ r, (search_and_respond provider invoke st cache now query).2.1.chat_history
        = st.chat_history ++ [Msg.mk Role.user query, Msg.mk Role.assistant r]) ∧
    (∀ handle net (st : AgentState) cache now evtime (url prompt : Str) (store : Bool),
      startsWithL "Ошибка".data (process_webpage_async handle net url cache now).1 = false →
      ∃ r, (process_webpage handle net invoke st cache now evtime url prompt store).2.1.chat_history
        = st.chat_history ++ [Msg.mk Role.user prompt, Msg.mk Role.assistant r]) ∧
    (∀ (st : AgentState) (input : Str), ∃ r,
      (chat_with_context invoke st input).2.chat_history
        = st.chat_history ++ [Msg.mk Role.user input, Msg.mk Role.assistant r]) := by
  have hchat : ∀ (st : AgentState) (input : Str), ∃ r,
      (chat invoke st input).2.chat_history
        = st.chat_history ++ [Msg.mk Role.user input, Msg.mk Role.assistant r] := by
    intro st input
    obtain ⟨r, hr⟩ := hok (chat_prompt_of input) st.chat_history
    refine ⟨r, ?_⟩
    simp only [chat, hr]
    rfl
  refine ⟨hchat, ?_, ?_, ?_⟩
  · intro provider st cache now query hne
    have hemp : (search_web provider cache now query 3).1.isEmpty = false := by
      cases h : (search_web provider cache now query 3).1 with
      | nil => exact absurd h hne
      | cons a t => rfl
    obtain ⟨r, hr⟩ := hok
      (search_prompt_of query (format_results (search_web provider cache now query 3).1))
      st.chat_history
    refine ⟨r, ?_⟩
    simp only [search_and_respond, hemp, Bool.false_eq_true, if_false, hr]
    rfl
  · intro handle net st cache now evtime url prompt store hfetch
    cases store with
    | false =>
      obtain ⟨r, hr⟩ := hok
        (webpage_prompt_of prompt (process_webpage_async handle net url cache now).1)
        st.chat_history
      refine ⟨r, ?_⟩
      simp only [process_webpage, hfetch, Bool.false_eq_true, if_false, hr]
      rfl
    | true =>
      obtain ⟨r, hr⟩ := hok
        (webpage_prompt_of prompt (process_webpage_async handle net url cache now).1)
        st.chat_history
      refine ⟨r, ?_⟩
      simp only [process_webpage, hfetch, Bool.false_eq_true, if_false, if_true, hr]
      rfl
  · intro st input
    by_cases h1 : (!(optTruthy st.current_context) || st.context_pages.isEmpty) = true
    · obtain ⟨r, hr⟩ := hchat st input
      refine ⟨r, ?_⟩
      rw [chat_with_context, if_pos h1]
      exact hr
    · by_cases h2 : contains_general_phrase input = true
      · obtain ⟨r, hr⟩ := hchat st input
        refine ⟨r, ?_⟩
        rw [chat_with_context, if_neg h1, if_pos h2]
        exact hr
      · obtain ⟨r, hr⟩ := hok (context_prompt_of input st.context_pages) st.chat_history
        refine ⟨r, ?_⟩
        rw [chat_with_context, if_neg h1, if_neg h2, hr]
        rfl

/-- Witness for C6: with a model that always answers, one plain chat and
one stored-context page analysis each append exactly the user turn and the
reply. -/
theorem C6_history_append_witness :
    (chat (fun _ _ => Except.ok "о".data) (AgentState.mk [] none none []) "х".data).2.chat_history
      = [Msg.mk Role.user "х".data, Msg.mk Role.assistant "о".data] ∧
    (process_webpage (fun _ => "т".data) (HttpOutcome.response 200 "b".data)
        (fun _ _ => Except.ok "о".data) (AgentState.mk [] none none [])
        (emptyCache CacheVal 3600 100) 0 0 "u".data "в".data true).2.1.chat_history
      = [Msg.mk Role.user "в".data, Msg.mk Role.assistant "о".data] := by
  have h := C6_history_append (fun _ _ => Except.ok "о".data)
    (fun p hh => ⟨"о".data, rfl⟩)
  exact ⟨by decide, by decide⟩

/-- C9 -/
theorem C9_model_error_history_unchanged (invoke : Model)
    (herr : ∀ p h, ∃ e, invoke p h = Except.error e) :
    (∀ (st : AgentState) (input : Str),
      (chat invoke st input).2.chat_history = st.chat_history ∧
      ∃ e, (chat invoke st input).1 = "Произошла ошибка: ".data ++ e) ∧
    (∀ provider (st : AgentState) cache now (query : Str),
      (search_and_respond provider invoke st cache now query).2.1.chat_history
        = st.chat_history ∧
      (¬ (search_web provider cache now query 3).1 = [] →
        ∃ e, (search_and_respond provider invoke st cache now query).1
          = "Произошла ошибка при поиске: ".data ++ e)) ∧
    (∀ handle net (st : AgentState) cache now evtime (url prompt : Str) (store : Bool),
      (process_webpage handle net invoke st cache now evtime url prompt store).2.1.chat_history
        = st.chat_history ∧
      (startsWithL "Ошибка".data (process_webpage_async handle net url cache now).1 = false →
        ∃ e, (process_webpage handle net invoke st cache now evtime url prompt store).1
          = "Ошибка при обработке страницы: ".data ++ e)) ∧
    (∀ (st : AgentState) (input : Str),
      (chat_with_context invoke st input).2.chat_history = st.chat_history ∧
      ∃ e, (chat_with_context invoke st input).1 = "Произошла ошибка: ".data ++ e) := by
  have hchat : ∀ (st : AgentState) (input : Str),
      (chat invoke st input).2.chat_history = st.chat_history ∧
      ∃ e, (chat invoke st input).1 = "Произошла ошибка: ".data ++ e := by
    intro st input
    obtain ⟨e, he⟩ := herr (chat_prompt_of input) st.chat_history
    refine ⟨?_, e, ?_⟩ <;> simp only [chat, he]
  refine ⟨hchat, ?_, ?_, ?_⟩
  · intro provider st cache now query
    by_cases hemp : (search_web provider cache now query 3).1.isEmpty = true
    · constructor
      · simp only [search_and_respond, hemp, if_true]
      · intro hne
        exact absurd (List.isEmpty_iff.mp hemp) hne
    · obtain ⟨e, he⟩ := herr
        (search_prompt_of query (format_results (search_web provider cache now query 3).1))
        st.chat_history
      have hempf : (search_web provider cache now query 3).1.isEmpty = false :=
        Bool.eq_false_iff.mpr hemp
      constructor
      · simp only [search_and_respond, hempf, Bool.false_eq_true, if_false, he]
      · intro _
        refine ⟨e, ?_⟩
        simp only [search_and_respond, hempf, Bool.false_eq_true, if_false, he]
  · intro handle net st cache now evtime url prompt store
    by_cases hf : startsWithL "Ошибка".data (process_webpage_async handle net url cache now).1 = true
    · constructor
      · simp only [process_webpage, hf, if_true]
      · intro hff
        rw [hf] at hff
        exact absurd hff.symm Bool.false_ne_true
    · have hff : startsWithL "Ошибка".data (process_webpage_async handle net url cache now).1 = false :=
        Bool.eq_false_iff.mpr hf
      obtain ⟨e, he⟩ := herr
        (webpage_prompt_of prompt (process_webpage_async handle net url cache now).1)
        st.chat_history
      cases store with
      | false =>
        constructor
        · simp only [process_webpage, hff, Bool.false_eq_true, if_false, he]
        · intro _
          refine ⟨e, ?_⟩
          simp only [process_webpage, hff, Bool.false_eq_true, if_false, he]
      | true =>
        constructor
        · simp only [process_webpage, hff, Bool.false_eq_true, if_false, if_true, he]
        · intro _
          refine ⟨e, ?_⟩
          simp only [process_webpage, hff, Bool.false_eq_true, if_false, if_true, he]
  · intro st input
    by_cases h1 : (!(optTruthy st.current_context) || st.context_pages.isEmpty) = true
    · have := hchat st input
      refine ⟨?_, ?_⟩
      · rw [chat_with_context, if_pos h1]
        exact this.1
      · obtain ⟨e, he⟩ := this.2
        refine ⟨e, ?_⟩
        rw [chat_with_context, if_pos h1]
        exact he
    · by_cases h2 : contains_general_phrase input = true
      · have := hchat st input
        refine ⟨?_, ?_⟩
        · rw [chat_with_context, if_neg h1, if_pos h2]
          exact this.1
        · obtain ⟨e, he⟩ := this.2
          refine ⟨e, ?_⟩
          rw [chat_with_context, if_neg h1, if_pos h2]
          exact he
      · obtain ⟨e, he⟩ := herr (context_prompt_of input st.context_pages) st.chat_history
        refine ⟨?_, e, ?_⟩ <;>
          · rw [chat_with_context, if_neg h1, if_neg h2, he]

/-- Witness for C9: a model that always raises leaves the history empty and
returns the error text. -/
theorem C9_model_error_history_unchanged_witness :
    (chat (fun _ _ => Except.error "сбой".data) (AgentState.mk [] none none []) "х".data).2.chat_history
      = [] ∧
    (chat (fun _ _ => Except.error "сбой".data) (AgentState.mk [] none none []) "х".data).1
      = "Произошла ошибка: сбой".data := by
  have h := C9_model_error_history_unchanged (fun _ _ => Except.error "сбой".data)
    (fun p hh => ⟨"сбой".data, rfl⟩)
  exact ⟨by decide, by decide⟩

/-- C10 -/
theorem C10_context_kept_on_model_error (handle : Str → Str) (net : HttpOutcome)
    (invoke : Model) (st : AgentState) (cache : WebCache CacheVal)
    (now evtime : Nat) (url prompt : Str)
    (hfetch : startsWithL "Ошибка".data (process_webpage_async handle net url cache now).1 = false)
    (herr : ∀ p h, ∃ e, invoke p h = Except.error e) :
    getEntry (process_webpage handle net invoke st cache now evtime url prompt true).2.1.context_pages url
      = some ((process_webpage_async handle net url cache now).1, evtime) ∧
    (process_webpage handle net invoke st cache now evtime url prompt true).2.1.current_context
      = some url ∧
    (process_webpage handle net invoke st cache now evtime url prompt true).2.1.chat_history
      = st.chat_history ∧
    ∃ e, (process_webpage handle net invoke st cache now evtime url prompt true).1
      = "Ошибка при обработке страницы: ".data ++ e := by
  obtain ⟨e, he⟩ := herr
    (webpage_prompt_of prompt (process_webpage_async handle net url cache now).1)
    st.chat_history
  refine ⟨?_, ?_, ?_, e, ?_⟩ <;>
    simp only [process_webpage, hfetch, Bool.false_eq_true, if_false, if_true, he]
  exact getEntry_upsertEntry_self _ _ _ _

/-- Witness for C10: fetch succeeds, the model raises, yet the page stays
in the context store and current_context points at its URL. -/
theorem C10_context_kept_on_model_error_witness :
    getEntry (process_webpage (fun _ => "т".data) (HttpOutcome.response 200 "b".data)
        (fun _ _ => Except.error "сбой".data) (AgentState.mk [] none none [])
        (emptyCache CacheVal 3600 100) 0 0 "u".data "в".data true).2.1.context_pages "u".data
      = some ("т".data, 0) ∧
    (process_webpage (fun _ => "т".data) (HttpOutcome.response 200 "b".data)
        (fun _ _ => Except.error "сбой".data) (AgentState.mk [] none none [])
        (emptyCache CacheVal 3600 100) 0 0 "u".data "в".data true).2.1.current_context
      = some "u".data ∧
    (process_webpage (fun _ => "т".data) (HttpOutcome.response 200 "b".data)
        (fun _ _ => Except.error "сбой".data) (AgentState.mk [] none none [])
        (emptyCache CacheVal 3600 100) 0 0 "u".data "в".data true).1
      = "Ошибка при обработке страницы: сбой".data := by
  have h := C10_context_kept_on_model_error (fun _ => "т".data)
    (HttpOutcome.response 200 "b".data) (fun _ _ => Except.error "сбой".data)
    (AgentState.mk [] none none []) (emptyCache CacheVal 3600 100) 0 0 "u".data "в".data
    (by decide) (fun p hh => ⟨"сбой".data, rfl⟩)
  exact ⟨by decide, by decide, by decide⟩
